import Mathlib

/-
Verification of the Black_Hole chunk-permutation compressor corpus.

Shallow embedding conventions:
- Python `bytes` values are `List Nat` (each element a byte value).
- `struct.pack` of an unsigned big-endian field of width `w` is `packBE w`;
  `struct.unpack` of one field is `unpackBE`.  `struct.pack` raises
  `struct.error` on out-of-range values: the compress-side functions model
  this as `none` (explicit range guards before building the bytes), and the
  parse-side round-trip theorems carry the matching `< 2 ^ (8 * w)` bounds.
- The external entropy coder (`paq`) is opaque: an arbitrary function
  parameter `coder`.  Claims about the container are stated on the bytes
  handed to / received from the coder.
- Python exceptions are `Option.none`.
-/

namespace BlackHole

/-- Chunk splitting with explicit fuel so that the definition is structural
and computable by `decide`.  Mirrors the Python list comprehension
`[data[i:i+chunk_size] for i in range(0, len(data), chunk_size)]`: each step
takes `c` bytes and recurses on the rest.  One unit of fuel is consumed per
chunk; `fuel = data.length` suffices whenever `c > 0`. -/
def chunksOfAux (c : Nat) : Nat → List Nat → List (List Nat)
  | 0, _ => []
  | _ + 1, [] => []
  | fuel + 1, x :: xs => (x :: xs).take c :: chunksOfAux c fuel ((x :: xs).drop c)

/-- The chunk list of `data` for chunk size `c` (meaningful for `c > 0`;
the `c = 0` case is the Python `ValueError` of `range(0, n, 0)` and is
guarded by the callers below). -/
def chunksOf (c : Nat) (data : List Nat) : List (List Nat) :=
  chunksOfAux c data.length data

/-- One step of the Python loop body
`if 0 <= pos < len(chunked_data): chunked_data[pos] = chunked_data[pos][::-1]`. -/
def revAt (C : List (List Nat)) (p : Nat) : List (List Nat) :=
  if p < C.length then C.set p (C.getD p []).reverse else C

/-- The Python `for pos in positions:` loop over `revAt`. -/
def revPositions (C : List (List Nat)) : List Nat → List (List Nat)
  | [] => C
  | p :: ps => revPositions (revAt C p) ps

/-- `reverse_chunks` of Black_Hole_94.py (identical in Black_Hole_89.py):
split into chunks of `chunk_size` (last chunk possibly short, no padding),
reverse the chunks at the listed positions (out-of-range positions are
silently skipped by the `0 <= pos < len(chunked_data)` guard), and join.
`chunk_size = 0` raises `ValueError` in Python (`range` with zero step). -/
def reverse_chunks (data : List Nat) (chunk_size : Nat) (positions : List Nat) :
    Option (List Nat) :=
  if chunk_size = 0 then none
  else some (List.flatten (revPositions (chunksOf chunk_size data) positions))

/-- `apply_calculus` of Black_Hole_94.py: XOR every byte with the low 8 bits
of `calculus_value`. -/
def apply_calculus (data : List Nat) (calculus_value : Nat) : List Nat :=
  data.map (fun b => b ^^^ (calculus_value &&& 255))

/-- Big-endian packing of `n` into `w` bytes (`struct.pack` of one unsigned
big-endian field).  `struct.pack` raises if `n` does not fit, so theorems
using it carry the corresponding range hypothesis. -/
def packBE : Nat → Nat → List Nat
  | 0, _ => []
  | w + 1, n => packBE w (n / 256) ++ [n % 256]

/-- Big-endian unpacking of a byte list (`struct.unpack` of one field). -/
def unpackBE (bs : List Nat) : Nat :=
  bs.foldl (fun acc b => acc * 256 + b) 0

/-- The metadata-plus-payload bytes that Black_Hole_94.py's `compress_data`
hands to `paq.compress`:
`>III` (original_size, chunk_size, calculus_value) ++ `>H` count ++
`>{count}I` positions ++ data. -/
def container_bytes (data : List Nat) (chunk_size : Nat) (positions : List Nat)
    (original_size calculus_value : Nat) : List Nat :=
  packBE 4 original_size ++ packBE 4 chunk_size ++ packBE 4 calculus_value ++
    packBE 2 positions.length ++ List.flatten (positions.map (packBE 4)) ++ data

/-- `compress_data` of Black_Hole_94.py with the opaque coder abstracted.
Failure modes, in the order the Python code hits them:
`struct.pack(">III", ...)` raises `struct.error` when original_size,
chunk_size or calculus_value does not fit a u32; the explicit check raises
`ValueError` for more than 65535 positions (after which `>H` cannot fail);
`struct.pack(f">{n}I", *positions)` raises when a position does not fit a
u32.  Otherwise the container bytes are entropy-coded. -/
def compress_data (coder : List Nat → List Nat) (data : List Nat)
    (chunk_size : Nat) (positions : List Nat) (original_size calculus_value : Nat) :
    Option (List Nat) :=
  if 2 ^ 32 ≤ original_size ∨ 2 ^ 32 ≤ chunk_size ∨ 2 ^ 32 ≤ calculus_value then none
  else if positions.length > 65535 then none
  else if positions.any (fun p => 2 ^ 32 ≤ p) then none
  else some (coder (container_bytes data chunk_size positions original_size calculus_value))

/-- Sequentially read `n` big-endian u32 fields, returning them and the rest
of the buffer; fails when fewer than `4 * n` bytes remain.  This is
`struct.unpack` of `>{n}I` on the slice `[start : start + 4 * n]` followed by
taking the remainder: Python errors exactly when the buffer holds fewer than
`4 * n` bytes past `start`. -/
def parseU32s : Nat → List Nat → Option (List Nat × List Nat)
  | 0, bs => some ([], bs)
  | n + 1, bs =>
    if bs.length < 4 then none
    else
      match parseU32s n (bs.drop 4) with
      | none => none
      | some (vs, rest) => some (unpackBE (bs.take 4) :: vs, rest)

/-- The header parsing inside Black_Hole_94.py's `decompress_data`, applied
to the already-entropy-decoded bytes: unpack `>III` from `[:12]`, `>H` from
`[12:14]`, the positions from `[14 : 14 + 4n]`, and keep the rest as the
transformed payload.  Each `struct.unpack` on a too-short slice raises. -/
def parse_container (bs : List Nat) :
    Option (Nat × Nat × Nat × List Nat × List Nat) :=
  if bs.length < 12 then none
  else if bs.length < 14 then none
  else
    match parseU32s (unpackBE ((bs.drop 12).take 2)) (bs.drop 14) with
    | none => none
    | some (positions, data) =>
      some (unpackBE (bs.take 4), unpackBE ((bs.drop 4).take 4),
        unpackBE ((bs.drop 8).take 4), positions, data)

/-- The part of Black_Hole_94.py's `decompress_data` after `paq.decompress`:
parse the header, undo the chunk reversal, undo the XOR, truncate to the
stored original size.  Any exception is `none`. -/
def decompress_payload (bs : List Nat) : Option (List Nat) :=
  match parse_container bs with
  | none => none
  | some (original_size, chunk_size, calculus_value, positions, data) =>
    (reverse_chunks data chunk_size positions).map
      (fun restored => (apply_calculus restored calculus_value).take original_size)

/-- The Python `chunked_data[-1] += b'\x00' * (chunk_size - len(chunked_data[-1]))`
of Black_Hole_65.py: pad the final chunk with zero bytes up to `c`
(a no-op when it already has `c` bytes, matching the `if` guard there). -/
def padLast (c : Nat) : List (List Nat) → List (List Nat)
  | [] => []
  | [ch] => [ch ++ List.replicate (c - ch.length) 0]
  | ch :: rest :: more => ch :: padLast c (rest :: more)

/-- `reverse_chunks_in_memory` of Black_Hole_65.py: chunk, zero-pad the final
chunk, reverse the listed in-range chunks, join.  The bare `except` turns any
exception into `None`: `chunk_size = 0` is a `ValueError` from `range`, and
empty `data` makes `chunked_data[-1]` an `IndexError`. -/
def reverse_chunks_in_memory (data : List Nat) (chunk_size : Nat)
    (positions : List Nat) : Option (List Nat) :=
  if chunk_size = 0 then none
  else if data.length = 0 then none
  else some (List.flatten (revPositions (padLast chunk_size (chunksOf chunk_size data)) positions))

/-- The chunk-restoration section of Black_Hole_65.py's
`decompress_and_restore_paq`: `total_chunks = len(data) // chunk_size`, slice
out that many chunks (discarding a trailing remainder), reverse the listed
in-range chunks, join.  `chunk_size = 0` is a `ZeroDivisionError` caught by
the bare `except`. -/
def restore_chunks65 (data : List Nat) (chunk_size : Nat) (positions : List Nat) :
    Option (List Nat) :=
  if chunk_size = 0 then none
  else some (List.flatten (revPositions
    ((List.range (data.length / chunk_size)).map
      (fun i => (data.drop (i * chunk_size)).take chunk_size)) positions))

/-- The metadata-plus-payload bytes that Black_Hole_65.py's
`compress_with_paq` hands to `paq.compress`:
`>Q` original_size ++ `>I` chunk_size ++ `>I` count ++ `>{count}I` positions
++ data. -/
def container_bytes65 (data : List Nat) (chunk_size : Nat) (positions : List Nat)
    (original_size : Nat) : List Nat :=
  packBE 8 original_size ++ packBE 4 chunk_size ++ packBE 4 positions.length ++
    List.flatten (positions.map (packBE 4)) ++ data

/-- The metadata-plus-payload bytes of Black_Hole_89.py's `compress_data`:
like Black_Hole_94 but with the position count packed as `>B` (one byte). -/
def container_bytes89 (data : List Nat) (chunk_size : Nat) (positions : List Nat)
    (original_size calculus_value : Nat) : List Nat :=
  packBE 4 original_size ++ packBE 4 chunk_size ++ packBE 4 calculus_value ++
    packBE 1 positions.length ++ List.flatten (positions.map (packBE 4)) ++ data

/-- One sampled candidate of Black_Hole_94.py's search loop: the loop draws a
`calculus_value` and a position list per iteration (the drawing itself is
`random`; the embedding takes the drawn sequence as input). -/
structure Candidate where
  calculus : Nat
  positions : List Nat
  deriving DecidableEq, Repr

/-- The body of one iteration of Black_Hole_94.py's `find_best_iteration`:
`apply_calculus`, then `reverse_chunks`, then `compress_data`.  A raised
exception (impossible chunk size, too many positions) propagates. -/
def iter94 (coder : List Nat → List Nat) (input : List Nat) (chunk_size : Nat)
    (cand : Candidate) : Option (List Nat) :=
  (reverse_chunks (apply_calculus input cand.calculus) chunk_size cand.positions).bind
    (fun reversed_data =>
      compress_data coder reversed_data chunk_size cand.positions input.length cand.calculus)

/-- The best-so-far update of Black_Hole_94.py's `find_best_iteration`
(`if comp_size < best_size:` — strict, ties keep the current best). -/
def bestStep (best candidate : List Nat) : List Nat :=
  if candidate.length < best.length then candidate else best

/-- `find_best_iteration` of Black_Hole_94.py: the zero-permutation baseline
`compress_data(input, chunk_size, [], len(input), 0)` is computed before the
loop; the loop keeps the smallest compressed blob.  `best_ratio = best_size /
len(input_data)` raises `ZeroDivisionError` on empty input (before any
iteration), and an exception in any iteration propagates and kills the
search.  The drawn random candidates are passed in as a list. -/
def find_best_iteration (coder : List Nat → List Nat) (input : List Nat)
    (chunk_size : Nat) (cands : List Candidate) : Option (List Nat) :=
  if input.length = 0 then none
  else
    (compress_data coder input chunk_size [] input.length 0).bind
      (fun base =>
        (cands.mapM (iter94 coder input chunk_size)).map
          (fun results => results.foldl bestStep base))

/-- One sampled candidate of Black_Hole_89.py's search loop (that loop also
draws the chunk size each iteration). -/
structure Cand89 where
  chunk : Nat
  calculus : Nat
  positions : List Nat
  deriving DecidableEq, Repr

/-- `compress_data` of Black_Hole_89.py with the opaque coder abstracted.
As in Black_Hole_94, `struct.pack(">III", ...)` raises for fields that do
not fit a u32; `struct.pack(">B", len(positions))` raises for more than 255
positions; `struct.pack(f">{n}I", *positions)` raises for a position that
does not fit a u32. -/
def compress_data89 (coder : List Nat → List Nat) (data : List Nat)
    (chunk_size : Nat) (positions : List Nat) (original_size calculus_value : Nat) :
    Option (List Nat) :=
  if 2 ^ 32 ≤ original_size ∨ 2 ^ 32 ≤ chunk_size ∨ 2 ^ 32 ≤ calculus_value then none
  else if positions.length > 255 then none
  else if positions.any (fun p => 2 ^ 32 ≤ p) then none
  else some (coder (container_bytes89 data chunk_size positions original_size calculus_value))

/-- The body of one iteration of Black_Hole_89.py's `find_best_iteration`. -/
def iter89 (coder : List Nat → List Nat) (input : List Nat) (cand : Cand89) :
    Option (List Nat) :=
  (reverse_chunks (apply_calculus input cand.calculus) cand.chunk cand.positions).bind
    (fun reversed_data =>
      compress_data89 coder reversed_data cand.chunk cand.positions input.length cand.calculus)

/-- `find_best_iteration` of Black_Hole_89.py: `best_compressed_data` starts
as `None` and `best_compression_ratio` as infinity, so the first successful
candidate always becomes the best and later ones are compared by
`compression_ratio = len(compressed) / len(input)` (strictly; with the fixed
positive denominator this is exactly the strict size comparison).  The
division raises `ZeroDivisionError` on empty input, and an exception in an
iteration propagates.  Note: no baseline is computed, so the inner result can
be `none` (Python `None`). -/
def find_best_89 (coder : List Nat → List Nat) (input : List Nat)
    (cands : List Cand89) : Option (Option (List Nat)) :=
  cands.foldlM
    (fun best cand =>
      match iter89 coder input cand with
      | none => none
      | some compressed =>
        if input.length = 0 then none
        else
          some (match best with
            | none => some compressed
            | some b => if compressed.length < b.length then compressed else b))
    (none : Option (List Nat))

/-- One candidate evaluation of Black_Hole_65.py's `find_best_chunk_strategy`:
`reverse_chunks_in_memory`, then `compress_with_paq` (whose `try` returns
failure when the coder raises).  The coder may fail, hence `Option`. -/
def try_candidate65 (coder : List Nat → Option (List Nat)) (original : List Nat)
    (chunk_size : Nat) (positions : List Nat) : Option (List Nat) :=
  (reverse_chunks_in_memory original chunk_size positions).bind
    (fun reversed_data => coder (container_bytes65 reversed_data chunk_size positions original.length))

/-- The loop body of Black_Hole_65.py's `find_best_chunk_strategy`: the
`if reversed_data and compress_with_paq(...)` guard skips a failed candidate
(best-so-far untouched); a successful one is kept when its compressed size is
strictly smaller (ratio comparison with the fixed positive denominator
`file_size`).  State: best size (`none` = the initial `inf`) and positions. -/
def step65 (coder : List Nat → Option (List Nat)) (original : List Nat)
    (chunk_size : Nat) (best : Option Nat × List Nat) (positions : List Nat) :
    Option Nat × List Nat :=
  match try_candidate65 coder original chunk_size positions with
  | none => best
  | some blob =>
    match best.1 with
    | none => (some blob.length, positions)
    | some bs => if blob.length < bs then (some blob.length, positions) else best

/-- The search loop of Black_Hole_65.py's `find_best_chunk_strategy` over the
drawn candidate position lists, starting from `best_positions = []`,
`best_compression_ratio = inf`. -/
def find_best_65 (coder : List Nat → Option (List Nat)) (original : List Nat)
    (chunk_size : Nat) (cands : List (List Nat)) : Option Nat × List Nat :=
  cands.foldl (step65 coder original chunk_size) (none, [])

/-- `compress_data` of Black_Hole_94.py with a coder that may itself raise
(a `paq.compress` failure): the pack-range and position-count failure modes
are as in `compress_data`, and the coder's own exception propagates — there
is no try/except around the call. -/
def compress_data_f (coder : List Nat → Option (List Nat)) (data : List Nat)
    (chunk_size : Nat) (positions : List Nat) (original_size calculus_value : Nat) :
    Option (List Nat) :=
  if 2 ^ 32 ≤ original_size ∨ 2 ^ 32 ≤ chunk_size ∨ 2 ^ 32 ≤ calculus_value then none
  else if positions.length > 65535 then none
  else if positions.any (fun p => 2 ^ 32 ≤ p) then none
  else coder (container_bytes data chunk_size positions original_size calculus_value)

/-- The body of one iteration of Black_Hole_94.py's `find_best_iteration`
with a failable coder. -/
def iter94_f (coder : List Nat → Option (List Nat)) (input : List Nat)
    (chunk_size : Nat) (cand : Candidate) : Option (List Nat) :=
  (reverse_chunks (apply_calculus input cand.calculus) chunk_size cand.positions).bind
    (fun reversed_data =>
      compress_data_f coder reversed_data chunk_size cand.positions input.length cand.calculus)

/-- `find_best_iteration` of Black_Hole_94.py with a failable entropy coder:
the loop body has no try/except, so a coder failure on any candidate (or on
the baseline) propagates out of the loop and the whole search ends with no
result. -/
def find_best_iteration_f (coder : List Nat → Option (List Nat)) (input : List Nat)
    (chunk_size : Nat) (cands : List Candidate) : Option (List Nat) :=
  if input.length = 0 then none
  else
    (compress_data_f coder input chunk_size [] input.length 0).bind
      (fun base =>
        (cands.mapM (iter94_f coder input chunk_size)).map
          (fun results => results.foldl bestStep base))

/-- Iterated list reversal, folded to parity: auxiliary vocabulary for
describing what `revPositions` does to the chunk at one index when that
index occurs `n` times in the position list. -/
def revN (n : Nat) (l : List Nat) : List Nat :=
  if n % 2 = 0 then l else l.reverse

/-- Modelled from the spec: the canonical container layout of section 6,
`MAGIC(2B, constant) | originalSize(u64 BE) | chunkSize(u32 BE) |
positionCount(u16 BE) | positions(positionCount × u32 BE) | payload`.  No
source file implements a magic prefix, so the magic bytes are a parameter. -/
def spec_container_layout (magic : List Nat) (original_size chunk_size : Nat)
    (positions payload : List Nat) : List Nat :=
  magic ++ packBE 8 original_size ++ packBE 4 chunk_size ++
    packBE 2 positions.length ++ List.flatten (positions.map (packBE 4)) ++ payload

section CodecLemmas

theorem packBE_length (w n : Nat) : (packBE w n).length = w := by
  induction w generalizing n with
  | zero => rfl
  | succ w ih => simp [packBE, ih]

theorem unpackBE_packBE (w n : Nat) (h : n < 256 ^ w) : unpackBE (packBE w n) = n := by
  induction w generalizing n with
  | zero =>
    simp only [packBE, unpackBE, List.foldl_nil]
    simp only [pow_zero] at h
    omega
  | succ w ih =>
    have hdiv : n / 256 < 256 ^ w := by
      rw [Nat.div_lt_iff_lt_mul (by norm_num)]
      calc n < 256 ^ (w + 1) := h
        _ = 256 ^ w * 256 := by ring
    have hsplit : unpackBE (packBE w (n / 256) ++ [n % 256])
        = unpackBE (packBE w (n / 256)) * 256 + n % 256 := by
      simp [unpackBE, List.foldl_append]
    rw [packBE, hsplit, ih _ hdiv]
    omega

theorem flatten_map_packBE_length (ps : List Nat) :
    ((ps.map (packBE 4)).flatten).length = 4 * ps.length := by
  induction ps with
  | nil => rfl
  | cons p ps ih =>
    simp only [List.map_cons, List.flatten_cons, List.length_append, packBE_length, ih,
      List.length_cons]
    ring

theorem parseU32s_flatten (ps rest : List Nat) (h : ∀ p ∈ ps, p < 2 ^ 32) :
    parseU32s ps.length ((ps.map (packBE 4)).flatten ++ rest) = some (ps, rest) := by
  induction ps with
  | nil => simp [parseU32s]
  | cons p ps ih =>
    have hp : p < 256 ^ 4 := by
      have h1 := h p (by simp)
      have h2 : (256 : Nat) ^ 4 = 2 ^ 32 := by norm_num
      omega
    have hrest : ∀ q ∈ ps, q < 2 ^ 32 := fun q hq => h q (by simp [hq])
    simp only [List.map_cons, List.flatten_cons, List.length_cons, List.append_assoc]
    rw [parseU32s]
    rw [List.take_left' (packBE_length 4 p), List.drop_left' (packBE_length 4 p)]
    have hlen : ¬ (packBE 4 p ++ ((ps.map (packBE 4)).flatten ++ rest)).length < 4 := by
      simp [packBE_length]
    rw [if_neg hlen, ih hrest, unpackBE_packBE 4 p hp]

theorem container_bytes_length (data : List Nat) (c : Nat) (ps : List Nat) (o v : Nat) :
    (container_bytes data c ps o v).length = 14 + 4 * ps.length + data.length := by
  simp only [container_bytes, List.length_append, packBE_length, flatten_map_packBE_length]

theorem container_drop4 (data : List Nat) (c : Nat) (ps : List Nat) (o v : Nat) :
    (container_bytes data c ps o v).drop 4
      = packBE 4 c ++ (packBE 4 v ++ (packBE 2 ps.length ++
        ((ps.map (packBE 4)).flatten ++ data))) := by
  have e1 : container_bytes data c ps o v
      = packBE 4 o ++ (packBE 4 c ++ (packBE 4 v ++ (packBE 2 ps.length ++
        ((ps.map (packBE 4)).flatten ++ data)))) := by
    simp [container_bytes]
  rw [e1, List.drop_left' (packBE_length 4 o)]

theorem container_drop8 (data : List Nat) (c : Nat) (ps : List Nat) (o v : Nat) :
    (container_bytes data c ps o v).drop 8
      = packBE 4 v ++ (packBE 2 ps.length ++ ((ps.map (packBE 4)).flatten ++ data)) := by
  have h : (8 : Nat) = 4 + 4 := by norm_num
  rw [h, ← List.drop_drop, container_drop4, List.drop_left' (packBE_length 4 c)]

theorem container_drop12 (data : List Nat) (c : Nat) (ps : List Nat) (o v : Nat) :
    (container_bytes data c ps o v).drop 12
      = packBE 2 ps.length ++ ((ps.map (packBE 4)).flatten ++ data) := by
  have h : (12 : Nat) = 8 + 4 := by norm_num
  rw [h, ← List.drop_drop, container_drop8, List.drop_left' (packBE_length 4 v)]

theorem container_drop14 (data : List Nat) (c : Nat) (ps : List Nat) (o v : Nat) :
    (container_bytes data c ps o v).drop 14
      = (ps.map (packBE 4)).flatten ++ data := by
  have h : (14 : Nat) = 12 + 2 := by norm_num
  rw [h, ← List.drop_drop, container_drop12, List.drop_left' (packBE_length 2 ps.length)]

/-- Field extraction from the Black_Hole_94 container: each header field sits
at its fixed offset, the positions block follows at 14, and the payload is
the rest. -/
theorem container_fields (data : List Nat) (c : Nat) (ps : List Nat) (o v : Nat) :
    (container_bytes data c ps o v).take 4 = packBE 4 o ∧
    ((container_bytes data c ps o v).drop 4).take 4 = packBE 4 c ∧
    ((container_bytes data c ps o v).drop 8).take 4 = packBE 4 v ∧
    ((container_bytes data c ps o v).drop 12).take 2 = packBE 2 ps.length ∧
    ((container_bytes data c ps o v).drop 14).take (4 * ps.length)
      = (ps.map (packBE 4)).flatten ∧
    (container_bytes data c ps o v).drop (14 + 4 * ps.length) = data := by
  have e1 : container_bytes data c ps o v
      = packBE 4 o ++ (packBE 4 c ++ (packBE 4 v ++ (packBE 2 ps.length ++
        ((ps.map (packBE 4)).flatten ++ data)))) := by
    simp [container_bytes]
  refine ⟨?_, ?_, ?_, ?_, ?_, ?_⟩
  · rw [e1, List.take_left' (packBE_length 4 o)]
  · rw [container_drop4, List.take_left' (packBE_length 4 c)]
  · rw [container_drop8, List.take_left' (packBE_length 4 v)]
  · rw [container_drop12, List.take_left' (packBE_length 2 ps.length)]
  · rw [container_drop14, List.take_left' (flatten_map_packBE_length ps)]
  · rw [← List.drop_drop, container_drop14,
      List.drop_left' (flatten_map_packBE_length ps)]

/-- Shared round trip: parsing the Black_Hole_94 container bytes recovers all
fields, whenever every field fits its packed width. -/
theorem parse_container_bytes (data : List Nat) (c : Nat) (ps : List Nat) (o v : Nat)
    (ho : o < 2 ^ 32) (hc : c < 2 ^ 32) (hv : v < 2 ^ 32)
    (hps : ∀ p ∈ ps, p < 2 ^ 32) (hn : ps.length < 2 ^ 16) :
    parse_container (container_bytes data c ps o v) = some (o, c, v, ps, data) := by
  obtain ⟨f1, f2, f3, f4, -, -⟩ := container_fields data c ps o v
  have hlen := container_bytes_length data c ps o v
  have hpow4 : (256 : Nat) ^ 4 = 2 ^ 32 := by norm_num
  have hpow2 : (256 : Nat) ^ 2 = 2 ^ 16 := by norm_num
  rw [parse_container]
  rw [if_neg (by omega), if_neg (by omega)]
  rw [f4, unpackBE_packBE 2 ps.length (by omega), container_drop14,
    parseU32s_flatten ps data hps]
  rw [f1, f2, f3, unpackBE_packBE 4 o (by omega), unpackBE_packBE 4 c (by omega),
    unpackBE_packBE 4 v (by omega)]

end CodecLemmas

section ChunkLemmas

theorem chunksOfAux_fuel (c : Nat) (hc : c ≠ 0) :
    ∀ f1 f2 l, l.length ≤ f1 → l.length ≤ f2 →
      chunksOfAux c f1 l = chunksOfAux c f2 l := by
  intro f1
  induction f1 with
  | zero =>
    intro f2 l h1 _
    have hl : l = [] := List.eq_nil_of_length_eq_zero (by omega)
    subst hl
    cases f2 <;> rfl
  | succ f1 ih =>
    intro f2 l h1 h2
    cases l with
    | nil => cases f2 <;> rfl
    | cons x xs =>
      cases f2 with
      | zero => simp at h2
      | succ f2 =>
        simp only [chunksOfAux]
        congr 1
        apply ih
        · simp only [List.length_drop, List.length_cons] at *
          omega
        · simp only [List.length_drop, List.length_cons] at *
          omega

theorem chunksOf_nil (c : Nat) : chunksOf c [] = [] := rfl

theorem chunksOf_cons (c : Nat) (hc : c ≠ 0) (x : Nat) (xs : List Nat) :
    chunksOf c (x :: xs) = (x :: xs).take c :: chunksOf c ((x :: xs).drop c) := by
  show chunksOfAux c (x :: xs).length (x :: xs) = _
  rw [List.length_cons]
  simp only [chunksOfAux]
  congr 1
  apply chunksOfAux_fuel c hc
  · simp only [List.length_drop, List.length_cons]
    omega
  · exact Nat.le_refl _

theorem chunksOf_ne_nil_form (c : Nat) (hc : c ≠ 0) (l : List Nat) (hl : l ≠ []) :
    chunksOf c l = l.take c :: chunksOf c (l.drop c) := by
  cases l with
  | nil => exact absurd rfl hl
  | cons x xs => exact chunksOf_cons c hc x xs

theorem flatten_chunksOf (c : Nat) (hc : c ≠ 0) (l : List Nat) :
    (chunksOf c l).flatten = l := by
  suffices h : ∀ (n : Nat) (l2 : List Nat), l2.length ≤ n → (chunksOf c l2).flatten = l2 by
    exact h l.length l (Nat.le_refl _)
  intro n
  induction n with
  | zero =>
    intro l2 h1
    have hl : l2 = [] := List.eq_nil_of_length_eq_zero (by omega)
    subst hl
    rfl
  | succ n ih =>
    intro l2 h1
    cases l2 with
    | nil => rfl
    | cons x xs =>
      rw [chunksOf_cons c hc, List.flatten_cons, ih]
      · exact List.take_append_drop c (x :: xs)
      · simp only [List.length_drop, List.length_cons] at *
        omega

theorem chunksOf_length (c : Nat) (hc : c ≠ 0) (l : List Nat) :
    (chunksOf c l).length = (l.length + c - 1) / c := by
  suffices h : ∀ (n : Nat) (l2 : List Nat), l2.length ≤ n →
      (chunksOf c l2).length = (l2.length + c - 1) / c by
    exact h l.length l (Nat.le_refl _)
  intro n
  induction n with
  | zero =>
    intro l2 h1
    have hl : l2 = [] := List.eq_nil_of_length_eq_zero (by omega)
    subst hl
    rw [chunksOf_nil]
    simp only [List.length_nil]
    rw [Nat.div_eq_of_lt (by omega)]
  | succ n ih =>
    intro l2 h1
    cases l2 with
    | nil =>
      rw [chunksOf_nil]
      simp only [List.length_nil]
      rw [Nat.div_eq_of_lt (by omega)]
    | cons x xs =>
      rw [chunksOf_cons c hc, List.length_cons, ih]
      · have hlen : ((x :: xs).drop c).length = (x :: xs).length - c := by
          simp
        rw [hlen, List.length_cons]
        rcases le_or_lt (xs.length + 1) c with hle | hlt
        · have e0 : xs.length + 1 - c = 0 := by omega
          rw [e0]
          have e1 : xs.length + 1 + c - 1 = (xs.length) + c := by omega
          rw [Nat.div_eq_of_lt (by omega), e1,
            Nat.add_div_right _ (Nat.pos_of_ne_zero hc),
            Nat.div_eq_of_lt (by omega)]
        · have e1 : xs.length + 1 - c + c - 1 = (xs.length - c) + c := by omega
          have e2 : xs.length + 1 + c - 1 = (xs.length - c + c) + c := by omega
          rw [e1, e2, Nat.add_div_right _ (Nat.pos_of_ne_zero hc),
            Nat.add_div_right _ (Nat.pos_of_ne_zero hc),
            Nat.add_div_right _ (Nat.pos_of_ne_zero hc)]
      · simp only [List.length_drop, List.length_cons] at *
        omega

theorem chunksOf_mem_length_le (c : Nat) (hc : c ≠ 0) (l : List Nat) :
    ∀ ch ∈ chunksOf c l, ch.length ≤ c := by
  suffices h : ∀ (n : Nat) (l2 : List Nat), l2.length ≤ n → ∀ ch ∈ chunksOf c l2, ch.length ≤ c by
    exact h l.length l (Nat.le_refl _)
  intro n
  induction n with
  | zero =>
    intro l2 h1 ch hch
    have hl : l2 = [] := List.eq_nil_of_length_eq_zero (by omega)
    subst hl
    simp [chunksOf_nil] at hch
  | succ n ih =>
    intro l2 h1 ch hch
    cases l2 with
    | nil => simp [chunksOf_nil] at hch
    | cons x xs =>
      rw [chunksOf_cons c hc] at hch
      rcases List.mem_cons.mp hch with h | h
      · subst h
        simp [List.length_take]
      · apply ih _ _ ch h
        simp only [List.length_drop, List.length_cons] at *
        omega

theorem chunksOf_dropLast_length (c : Nat) (hc : c ≠ 0) (l : List Nat) :
    ∀ ch ∈ (chunksOf c l).dropLast, ch.length = c := by
  suffices h : ∀ (n : Nat) (l2 : List Nat), l2.length ≤ n →
      ∀ ch ∈ (chunksOf c l2).dropLast, ch.length = c by
    exact h l.length l (Nat.le_refl _)
  intro n
  induction n with
  | zero =>
    intro l2 h1 ch hch
    have hl : l2 = [] := List.eq_nil_of_length_eq_zero (by omega)
    subst hl
    simp [chunksOf_nil] at hch
  | succ n ih =>
    intro l2 h1 ch hch
    cases l2 with
    | nil => simp [chunksOf_nil] at hch
    | cons x xs =>
      rw [chunksOf_cons c hc] at hch
      by_cases hrest : (x :: xs).drop c = []
      · rw [hrest, chunksOf_nil] at hch
        simp at hch
      · have hne : chunksOf c ((x :: xs).drop c) ≠ [] := by
          rw [chunksOf_ne_nil_form c hc _ hrest]
          simp
        rcases List.exists_cons_of_ne_nil hne with ⟨ch2, CH, hCH⟩
        rw [hCH, List.dropLast_cons₂] at hch
        rcases List.mem_cons.mp hch with h | h
        · subst h
          have hlong : c < (x :: xs).length := by
            by_contra hcon
            exact hrest (List.drop_eq_nil_of_le (by omega))
          simp only [List.length_take]
          omega
        · rw [← hCH] at h
          apply ih _ _ ch h
          simp only [List.length_drop, List.length_cons] at *
          omega

theorem revAt_length (C : List (List Nat)) (p : Nat) :
    (revAt C p).length = C.length := by
  unfold revAt
  split <;> simp

theorem revPositions_length (ps : List Nat) :
    ∀ C, (revPositions C ps).length = C.length := by
  induction ps with
  | nil => intro C; rfl
  | cons p ps ih =>
    intro C
    rw [revPositions, ih, revAt_length]

theorem revAt_getD (C : List (List Nat)) (p i : Nat) (hi : i < C.length) :
    (revAt C p).getD i [] = if p = i then (C.getD i []).reverse else C.getD i [] := by
  unfold revAt
  by_cases hp : p < C.length
  · rw [if_pos hp]
    by_cases hpi : p = i
    · subst hpi
      rw [if_pos rfl, List.getD_eq_getElem _ _ (by simpa using hi),
        List.getElem_set_self, List.getD_eq_getElem _ _ hi]
    · rw [if_neg hpi, List.getD_eq_getElem _ _ (by simpa using hi),
        List.getElem_set_ne hpi, List.getD_eq_getElem _ _ hi]
  · rw [if_neg hp, if_neg (by omega)]

theorem revN_succ (n : Nat) (l : List Nat) : revN (n + 1) l = revN n l.reverse := by
  unfold revN
  rcases Nat.mod_two_eq_zero_or_one n with h | h
  · have h1 : (n + 1) % 2 = 1 := by omega
    rw [h, h1]
    simp
  · have h1 : (n + 1) % 2 = 0 := by omega
    rw [h, h1]
    simp

theorem revN_revN (n : Nat) (l : List Nat) : revN n (revN n l) = l := by
  unfold revN
  rcases Nat.mod_two_eq_zero_or_one n with h | h <;> rw [h] <;> simp

theorem revPositions_getD (ps : List Nat) :
    ∀ C i, i < C.length →
      (revPositions C ps).getD i [] = revN (ps.count i) (C.getD i []) := by
  induction ps with
  | nil =>
    intro C i _
    simp [revPositions, revN, List.count_nil]
  | cons p ps ih =>
    intro C i hi
    rw [revPositions, ih (revAt C p) i (by rw [revAt_length]; exact hi),
      revAt_getD C p i hi]
    by_cases hpi : p = i
    · subst hpi
      rw [if_pos rfl]
      have hcount : (p :: ps).count p = ps.count p + 1 := by
        simp [List.count_cons]
      rw [hcount, revN_succ]
    · rw [if_neg hpi]
      have hcount : (p :: ps).count i = ps.count i := by
        simp [List.count_cons, hpi]
      rw [hcount]

theorem revPositions_revPositions (C : List (List Nat)) (ps : List Nat) :
    revPositions (revPositions C ps) ps = C := by
  apply List.ext_getElem
  · rw [revPositions_length, revPositions_length]
  · intro i h1 h2
    have hiC : i < C.length := h2
    have hi1 : i < (revPositions C ps).length := by
      rw [revPositions_length]; exact hiC
    rw [← List.getD_eq_getElem _ [] h1, ← List.getD_eq_getElem _ [] h2,
      revPositions_getD ps _ i hi1, revPositions_getD ps C i hiC, revN_revN]

theorem revAt_map_length (C : List (List Nat)) (p : Nat) :
    (revAt C p).map List.length = C.map List.length := by
  apply List.ext_getElem
  · simp [revAt_length]
  · intro i h1 h2
    have hiC : i < C.length := by simpa using h2
    have hrl : i < (revAt C p).length := by rw [revAt_length]; exact hiC
    rw [List.getElem_map, List.getElem_map]
    rw [← List.getD_eq_getElem _ [] hrl, ← List.getD_eq_getElem _ [] hiC,
      revAt_getD C p i hiC]
    split <;> simp

theorem revPositions_map_length (ps : List Nat) :
    ∀ C, (revPositions C ps).map List.length = C.map List.length := by
  induction ps with
  | nil => intro C; rfl
  | cons p ps ih =>
    intro C
    rw [revPositions, ih, revAt_map_length]

theorem flatten_length_of_map_length (L L2 : List (List Nat))
    (h : L2.map List.length = L.map List.length) :
    L2.flatten.length = L.flatten.length := by
  rw [List.length_flatten, List.length_flatten, h]

theorem chunksOf_flatten_of_map_length (c : Nat) (hc : c ≠ 0) :
    ∀ L L2 : List (List Nat), L2.map List.length = L.map List.length →
      chunksOf c L.flatten = L → chunksOf c L2.flatten = L2 := by
  intro L
  induction L with
  | nil =>
    intro L2 hmap _
    have : L2 = [] := by simpa using hmap
    subst this
    rfl
  | cons ch rest ih =>
    intro L2 hmap hL
    cases L2 with
    | nil => simp at hmap
    | cons ch2 rest2 =>
      simp only [List.map_cons, List.cons.injEq] at hmap
      obtain ⟨hlen2, hrest2⟩ := hmap
      rw [List.flatten_cons] at hL ⊢
      have hjrlen : rest2.flatten.length = rest.flatten.length :=
        flatten_length_of_map_length rest rest2 hrest2
      have hne : ch ++ rest.flatten ≠ [] := by
        intro hcon
        rw [hcon, chunksOf_nil] at hL
        exact List.cons_ne_nil ch rest hL.symm
      rw [chunksOf_ne_nil_form c hc _ hne] at hL
      injection hL with htake hdrop
      have hchle : ch.length ≤ c := by
        have hlt := congrArg List.length htake
        simp only [List.length_take, List.length_append] at hlt
        omega
      have htake2 : (ch ++ rest.flatten).take c
          = ch ++ rest.flatten.take (c - ch.length) := by
        rw [List.take_append_eq_append_take, List.take_of_length_le hchle]
      have hjr0len : min (c - ch.length) rest.flatten.length = 0 := by
        rw [htake2] at htake
        have hlt := congrArg List.length htake
        simp only [List.length_append, List.length_take] at hlt
        omega
      have hpos : 0 < ch.length + rest.flatten.length := by
        rcases Nat.eq_zero_or_pos (ch.length + rest.flatten.length) with h0 | h0
        · exfalso
          apply hne
          apply List.eq_nil_of_length_eq_zero
          rw [List.length_append]
          omega
        · exact h0
      have hne2 : ch2 ++ rest2.flatten ≠ [] := by
        intro hcon
        have hl0 := congrArg List.length hcon
        simp only [List.length_append, List.length_nil] at hl0
        omega
      rw [chunksOf_ne_nil_form c hc _ hne2]
      congr 1
      · rw [List.take_append_eq_append_take,
          List.take_of_length_le (by omega : ch2.length ≤ c)]
        have hnil : rest2.flatten.take (c - ch2.length) = [] := by
          apply List.eq_nil_of_length_eq_zero
          rw [List.length_take]
          omega
        rw [hnil, List.append_nil]
      · rw [List.drop_append_eq_append_drop,
          List.drop_eq_nil_of_le (by omega : ch2.length ≤ c), List.nil_append, hlen2]
        rw [List.drop_append_eq_append_drop, List.drop_eq_nil_of_le hchle,
          List.nil_append] at hdrop
        rcases Nat.eq_zero_or_pos (c - ch.length) with hc0 | hcpos
        · rw [hc0, List.drop_zero]
          rw [hc0, List.drop_zero] at hdrop
          exact ih rest2 hrest2 hdrop
        · have hjr2nil : rest2.flatten = [] := by
            apply List.eq_nil_of_length_eq_zero
            omega
          have hjrn : rest.flatten = [] := by
            apply List.eq_nil_of_length_eq_zero
            omega
          rw [hjr2nil]
          simp only [List.drop_nil, chunksOf_nil]
          rw [hjrn] at hdrop
          simp only [List.drop_nil, chunksOf_nil] at hdrop
          rw [← hdrop] at hrest2
          have hr2 : rest2 = [] := by simpa using hrest2
          rw [hr2]

end ChunkLemmas

section TransformLemmas

theorem revAt_revAt (C : List (List Nat)) (p : Nat) : revAt (revAt C p) p = C := by
  apply List.ext_getElem
  · rw [revAt_length, revAt_length]
  · intro i h1 h2
    have hiC : i < C.length := h2
    have hi1 : i < (revAt C p).length := by rw [revAt_length]; exact hiC
    rw [← List.getD_eq_getElem _ [] h1, ← List.getD_eq_getElem _ [] h2,
      revAt_getD _ p i hi1, revAt_getD C p i hiC]
    by_cases hpi : p = i
    · rw [if_pos hpi, if_pos hpi, List.reverse_reverse]
    · rw [if_neg hpi, if_neg hpi]

/-- Applying `reverse_chunks` twice with the same parameters restores the
payload exactly (Black_Hole_94 transform; no padding is involved, so the
chunk boundaries of the second application coincide with the first). -/
theorem reverse_chunks_reverse_chunks (d : List Nat) (c : Nat) (ps : List Nat)
    (hc : c ≠ 0) :
    (reverse_chunks d c ps).bind (fun t => reverse_chunks t c ps) = some d := by
  rw [reverse_chunks, if_neg hc]
  show reverse_chunks ((revPositions (chunksOf c d) ps).flatten) c ps = some d
  rw [reverse_chunks, if_neg hc]
  have h1 : chunksOf c ((revPositions (chunksOf c d) ps).flatten)
      = revPositions (chunksOf c d) ps := by
    apply chunksOf_flatten_of_map_length c hc (chunksOf c d)
    · exact revPositions_map_length ps (chunksOf c d)
    · rw [flatten_chunksOf c hc]
  rw [h1, revPositions_revPositions, flatten_chunksOf c hc]

/-- The Black_Hole_94 transform preserves the payload length. -/
theorem reverse_chunks_length (d : List Nat) (c : Nat) (ps : List Nat)
    (hc : c ≠ 0) :
    (reverse_chunks d c ps).map List.length = some d.length := by
  rw [reverse_chunks, if_neg hc]
  show some ((revPositions (chunksOf c d) ps).flatten).length = some d.length
  rw [flatten_length_of_map_length (chunksOf c d) _
    (revPositions_map_length ps (chunksOf c d)), flatten_chunksOf c hc]

/-- Out-of-range positions are no-ops: filtering them out of the position
list does not change the result of the chunk-reversal loop. -/
theorem revPositions_filter (ps : List Nat) :
    ∀ C : List (List Nat),
      revPositions C (ps.filter (fun p => p < C.length)) = revPositions C ps := by
  induction ps with
  | nil => intro C; rfl
  | cons p ps ih =>
    intro C
    by_cases hp : p < C.length
    · rw [List.filter_cons_of_pos (by simpa using hp)]
      show revPositions (revAt C p) (ps.filter (fun q => q < C.length))
        = revPositions (revAt C p) ps
      rw [← ih (revAt C p), revAt_length]
    · rw [List.filter_cons_of_neg (by simpa using hp)]
      show revPositions C (ps.filter (fun q => q < C.length))
        = revPositions (revAt C p) ps
      rw [revAt, if_neg hp, ih C]

theorem padLast_map_length (c : Nat) :
    ∀ L : List (List Nat), (∀ ch ∈ L.dropLast, ch.length = c) →
      (∀ ch ∈ L, ch.length ≤ c) →
      (padLast c L).map List.length = List.replicate L.length c := by
  intro L
  induction L with
  | nil => intro _ _; rfl
  | cons ch rest ih =>
    intro hdrop hle
    cases rest with
    | nil =>
      have hch : ch.length ≤ c := hle ch (by simp)
      simp only [padLast, List.map_cons, List.map_nil, List.length_append,
        List.length_replicate, List.length_cons, List.length_nil]
      have he : ch.length + (c - ch.length) = c := by omega
      rw [he]
      simp [List.replicate]
    | cons r more =>
      have h1 : ch.length = c := by
        apply hdrop ch
        rw [List.dropLast_cons₂]
        simp
      have hd2 : ∀ ch2 ∈ (r :: more).dropLast, ch2.length = c := by
        intro ch2 hch2
        apply hdrop ch2
        rw [List.dropLast_cons₂]
        simp [hch2]
      have hl2 : ∀ ch2 ∈ r :: more, ch2.length ≤ c := by
        intro ch2 hch2
        exact hle ch2 (by simp [hch2])
      show ch.length :: (padLast c (r :: more)).map List.length
        = List.replicate (r :: more).length.succ c
      rw [ih hd2 hl2, h1, List.replicate_succ]

/-- The Black_Hole_65 padded transform succeeds on any nonempty payload with
positive chunk size, and its output length is `numChunks * chunkSize`. -/
theorem reverse_chunks_in_memory_length (d : List Nat) (c : Nat) (ps : List Nat)
    (hc : c ≠ 0) (hd : d ≠ []) :
    (reverse_chunks_in_memory d c ps).map List.length
      = some (((d.length + c - 1) / c) * c) := by
  have hlen : ¬ d.length = 0 := by
    simpa [List.length_eq_zero] using hd
  rw [reverse_chunks_in_memory, if_neg hc, if_neg hlen]
  show some ((revPositions (padLast c (chunksOf c d)) ps).flatten).length = _
  rw [flatten_length_of_map_length (padLast c (chunksOf c d)) _
    (revPositions_map_length ps _), List.length_flatten,
    padLast_map_length c (chunksOf c d) (chunksOf_dropLast_length c hc d)
      (chunksOf_mem_length_le c hc d),
    List.sum_replicate, smul_eq_mul, chunksOf_length c hc]

theorem chunksOf_map (c : Nat) (hc : c ≠ 0) (f : Nat → Nat) (l : List Nat) :
    chunksOf c (l.map f) = (chunksOf c l).map (List.map f) := by
  suffices h : ∀ (n : Nat) (l2 : List Nat), l2.length ≤ n →
      chunksOf c (l2.map f) = (chunksOf c l2).map (List.map f) by
    exact h l.length l (Nat.le_refl _)
  intro n
  induction n with
  | zero =>
    intro l2 h1
    have hl : l2 = [] := List.eq_nil_of_length_eq_zero (by omega)
    subst hl
    rfl
  | succ n ih =>
    intro l2 h1
    cases l2 with
    | nil => rfl
    | cons x xs =>
      rw [List.map_cons, chunksOf_cons c hc, chunksOf_cons c hc, List.map_cons,
        ← List.map_cons f x xs, ← List.map_take, ← List.map_drop, ih]
      simp only [List.length_drop, List.length_cons] at *
      omega

theorem revAt_map (C : List (List Nat)) (p : Nat) (f : Nat → Nat) :
    revAt (C.map (List.map f)) p = (revAt C p).map (List.map f) := by
  unfold revAt
  rw [List.length_map]
  by_cases hp : p < C.length
  · rw [if_pos hp, if_pos hp, List.map_set]
    congr 1
    rw [List.getD_eq_getElem _ _ (by simpa using hp),
      List.getD_eq_getElem _ _ hp, List.getElem_map, List.map_reverse]
  · rw [if_neg hp, if_neg hp]

theorem revPositions_map (ps : List Nat) (f : Nat → Nat) :
    ∀ C : List (List Nat),
      revPositions (C.map (List.map f)) ps = (revPositions C ps).map (List.map f) := by
  induction ps with
  | nil => intro C; rfl
  | cons p ps ih =>
    intro C
    show revPositions (revAt (C.map (List.map f)) p) ps
      = (revPositions (revAt C p) ps).map (List.map f)
    rw [revAt_map, ih (revAt C p)]

/-- The Black_Hole_94 chunk reversal commutes with any bytewise map, in
particular with the XOR of `apply_calculus`. -/
theorem reverse_chunks_map (d : List Nat) (c : Nat) (ps : List Nat)
    (hc : c ≠ 0) (f : Nat → Nat) :
    reverse_chunks (d.map f) c ps = (reverse_chunks d c ps).map (List.map f) := by
  rw [reverse_chunks, if_neg hc, reverse_chunks, if_neg hc]
  show some _ = some _
  rw [chunksOf_map c hc, revPositions_map, List.map_flatten]

theorem apply_calculus_apply_calculus (d : List Nat) (v : Nat) :
    apply_calculus (apply_calculus d v) v = d := by
  unfold apply_calculus
  rw [List.map_map]
  have hcomp : ∀ b : Nat,
      ((fun b => b ^^^ (v &&& 255)) ∘ fun b => b ^^^ (v &&& 255)) b = b := by
    intro b
    exact Nat.xor_cancel_right (v &&& 255) b
  calc d.map ((fun b => b ^^^ (v &&& 255)) ∘ fun b => b ^^^ (v &&& 255))
      = d.map id := List.map_congr_left (fun b _ => hcomp b)
    _ = d := List.map_id d

theorem revPositions_nil_chunks (ps : List Nat) : revPositions [] ps = [] := by
  have h := revPositions_length ps []
  exact List.eq_nil_of_length_eq_zero (by simpa using h)

theorem reverse_chunks_nil (c : Nat) (ps : List Nat) (hc : c ≠ 0) :
    reverse_chunks [] c ps = some [] := by
  rw [reverse_chunks, if_neg hc]
  show some (revPositions (chunksOf c []) ps).flatten = some []
  rw [chunksOf_nil, revPositions_nil_chunks]
  rfl

end TransformLemmas

section SearchLemmas

theorem bestStep_le (best cand : List Nat) :
    (bestStep best cand).length ≤ best.length := by
  unfold bestStep
  split <;> omega

theorem bestStep_chain (results : List (List Nat)) :
    ∀ base : List Nat,
      List.Chain' (fun a b => b ≤ a)
        ((results.scanl bestStep base).map List.length) := by
  induction results with
  | nil =>
    intro base
    simp [List.scanl_nil]
  | cons r rs ih =>
    intro base
    rw [List.scanl_cons, List.singleton_append, List.map_cons]
    refine List.chain'_cons'.mpr ⟨?_, ih (bestStep base r)⟩
    intro h hh
    cases rs with
    | nil =>
      simp only [List.scanl_nil, List.map_cons, List.map_nil, List.head?_cons,
        Option.mem_def, Option.some.injEq] at hh
      rw [← hh]
      exact bestStep_le base r
    | cons r2 rs2 =>
      simp only [List.scanl_cons, List.singleton_append, List.map_cons,
        List.head?_cons, Option.mem_def, Option.some.injEq] at hh
      rw [← hh]
      exact bestStep_le base r

/-- The final element of the best-so-far scan is exactly the fold that the
search loop returns. -/
theorem scanl_getLast (results : List (List Nat)) :
    ∀ base : List Nat,
      (results.scanl bestStep base).getLast? = some (results.foldl bestStep base) := by
  induction results with
  | nil => intro base; rfl
  | cons r rs ih =>
    intro base
    rw [List.scanl_cons, List.singleton_append, List.foldl_cons]
    have h := ih (bestStep base r)
    cases rs with
    | nil =>
      rw [List.scanl_nil]
      rfl
    | cons r2 rs2 =>
      rw [List.scanl_cons, List.singleton_append] at h ⊢
      rw [List.getLast?_cons_cons]
      exact h

theorem iter94_isSome (coder : List Nat → List Nat) (input : List Nat)
    (c : Nat) (cand : Candidate) (hc : c ≠ 0)
    (hlen32 : input.length < 2 ^ 32) (hc32 : c < 2 ^ 32)
    (hv : cand.calculus < 2 ^ 32) (hcand : cand.positions.length ≤ 65535)
    (hps : ∀ p ∈ cand.positions, p < 2 ^ 32) :
    (iter94 coder input c cand).isSome := by
  have hany : ¬ (cand.positions.any (fun p => 2 ^ 32 ≤ p) = true) := by
    simp only [List.any_eq_true, decide_eq_true_eq, not_exists, not_and]
    intro p hp
    have := hps p hp
    omega
  unfold iter94
  rw [reverse_chunks, if_neg hc]
  show (compress_data coder _ c cand.positions input.length cand.calculus).isSome
  unfold compress_data
  rw [if_neg (by push_neg; exact ⟨hlen32, hc32, hv⟩), if_neg (by omega),
    if_neg hany]
  rfl

theorem mapM_isSome (f : Candidate → Option (List Nat)) :
    ∀ l : List Candidate, (∀ x ∈ l, (f x).isSome) → (l.mapM f).isSome := by
  intro l
  induction l with
  | nil => intro _; rfl
  | cons a l2 ih =>
    intro h
    rw [List.mapM_cons]
    rcases Option.isSome_iff_exists.mp (h a (by simp)) with ⟨b, hb⟩
    rcases Option.isSome_iff_exists.mp (ih (fun x hx => h x (by simp [hx]))) with ⟨bs, hbs⟩
    rw [hb, hbs]
    rfl

theorem try_candidate65_none (coder : List Nat → Option (List Nat))
    (original : List Nat) (c : Nat) (ps rd : List Nat)
    (hrev : reverse_chunks_in_memory original c ps = some rd)
    (hfail : coder (container_bytes65 rd c ps original.length) = none) :
    try_candidate65 coder original c ps = none := by
  unfold try_candidate65
  rw [hrev]
  exact hfail

theorem step65_skip (coder : List Nat → Option (List Nat)) (original : List Nat)
    (c : Nat) (ps : List Nat) (best : Option Nat × List Nat)
    (htry : try_candidate65 coder original c ps = none) :
    step65 coder original c best ps = best := by
  unfold step65
  rw [htry]

theorem mapM_append_none (f : Candidate → Option (List Nat)) (cd : Candidate)
    (hcd : f cd = none) :
    ∀ l1 l2 : List Candidate, (l1 ++ cd :: l2).mapM f = none := by
  intro l1
  induction l1 with
  | nil =>
    intro l2
    rw [List.nil_append, List.mapM_cons, hcd]
    rfl
  | cons a l1 ih =>
    intro l2
    rw [List.cons_append, List.mapM_cons, ih l2]
    cases f a <;> rfl

/-- A failed iteration kills Black_Hole_94's whole search: with no
try/except in the loop, `mapM` over a candidate list containing the failing
candidate is `none`, and so is the search result. -/
theorem find_best_iteration_f_fatal (fcoder : List Nat → Option (List Nat))
    (input : List Nat) (chunk : Nat) (cands1 cands2 : List Candidate)
    (cd : Candidate) (hiter : iter94_f fcoder input chunk cd = none) :
    find_best_iteration_f fcoder input chunk (cands1 ++ cd :: cands2) = none := by
  rw [find_best_iteration_f]
  split
  · rfl
  · have hm := mapM_append_none (iter94_f fcoder input chunk) cd hiter cands1 cands2
    simp only [hm]
    cases compress_data_f fcoder input chunk [] input.length 0 <;> rfl

end SearchLemmas

section Claims

/-- Claim C1: for every payload `P`, every chunk size `c > 0`, and every list
of distinct positions each in `[0, numChunks)`: applying the chunk-reversal
transform to `P` with `(c, positions)`, applying it again with the same
parameters, and truncating the result to `len(P)`, yields exactly `P`;
equivalently, reversing the same chunk twice (`revAt` at the same index)
restores the chunk list exactly. -/
theorem c1_round_trip (P : List Nat) (c : Nat) (ps : List Nat)
    (C : List (List Nat)) (p : Nat) (hc : 0 < c) (hnodup : ps.Nodup)
    (hin : ∀ q ∈ ps, q < (P.length + c - 1) / c) :
    ((reverse_chunks P c ps).bind (fun t => reverse_chunks t c ps)).map
      (fun r => r.take P.length) = some P ∧
    revAt (revAt C p) p = C := by
  constructor
  · rw [reverse_chunks_reverse_chunks P c ps (by omega)]
    show some (P.take P.length) = some P
    rw [List.take_length]
  · exact revAt_revAt C p

theorem c1_witness :
    ([0, 2] : List Nat).Nodup ∧
    (∀ q ∈ ([0, 2] : List Nat), q < (([1, 2, 3, 4, 5] : List Nat).length + 2 - 1) / 2) ∧
    (((reverse_chunks [1, 2, 3, 4, 5] 2 [0, 2]).bind
        (fun t => reverse_chunks t 2 [0, 2])).map
      (fun r => r.take 5) = some [1, 2, 3, 4, 5] ∧
      revAt (revAt [[1, 2], [3]] 0) 0 = [[1, 2], [3]]) :=
  ⟨by decide, by decide,
    c1_round_trip [1, 2, 3, 4, 5] 2 [0, 2] [[1, 2], [3]] 0 (by decide) (by decide)
      (by decide)⟩

/-- Claim C2: for every plan whose positions are distinct, at most the
configured maximum (MAX_POSITIONS = 64) in number, and representable in the
packed field widths, parsing the container built by `compress_data` (before
any entropy coding) reproduces originalSize, chunkSize, calculusValue, the
positions in the same order, and the transformed payload byte-for-byte. -/
theorem c2_container_fidelity (data : List Nat) (c : Nat) (ps : List Nat)
    (o v : Nat) (hnodup : ps.Nodup) (hmax : ps.length ≤ 64)
    (ho : o < 2 ^ 32) (hc : c < 2 ^ 32) (hv : v < 2 ^ 32)
    (hps : ∀ p ∈ ps, p < 2 ^ 32) :
    parse_container (container_bytes data c ps o v) = some (o, c, v, ps, data) :=
  parse_container_bytes data c ps o v ho hc hv hps (by omega)

theorem c2_witness :
    parse_container (container_bytes [9, 8] 4 [1, 2] 2 7)
      = some (2, 4, 7, [1, 2], [9, 8]) :=
  c2_container_fidelity [9, 8] 4 [1, 2] 2 7 (by decide) (by decide) (by decide)
    (by decide) (by decide) (by decide)

/-- Claim C3 counterexample: Black_Hole_94's `reverse_chunks` (the
transform cited by the claim) does not pad: for `P = [1]` and `c = 4` its
output is `[1]` of length 1, not `numChunks * c = 4`, so no `[b,0,0,0]`
padded chunk arises on this code path. -/
theorem c3_counterexample :
    reverse_chunks [1] 4 [] = some [1] ∧ (1 : Nat) ≠ ((1 + 4 - 1) / 4) * 4 := by
  decide

/-- Claim C3 (amended): the padding variant `reverse_chunks_in_memory`
(Black_Hole_65) produces output of length `numChunks * c` for every nonempty
payload, and Scenario B holds for it: `[b]` with `c = 4` becomes the padded
chunk `[b,0,0,0]`, listing position 0 turns it into `[0,0,0,b]`, and the
Black_Hole_65 decode path plus truncation to `N = 1` recovers `[b]`.
Black_Hole_94's `reverse_chunks` instead preserves the payload length
exactly (no padding). -/
theorem c3_padded_transform (P : List Nat) (c : Nat) (ps : List Nat) (b : Nat)
    (hc : 0 < c) (hP : P ≠ []) :
    (reverse_chunks_in_memory P c ps).map List.length
      = some (((P.length + c - 1) / c) * c) ∧
    (reverse_chunks P c ps).map List.length = some P.length ∧
    reverse_chunks_in_memory [b] 4 [0] = some [0, 0, 0, b] ∧
    (restore_chunks65 [0, 0, 0, b] 4 [0]).map (fun r => r.take 1) = some [b] := by
  refine ⟨reverse_chunks_in_memory_length P c ps (by omega) hP,
    reverse_chunks_length P c ps (by omega), rfl, ?_⟩
  have h4 : ([0, 0, 0, b] : List Nat).length / 4 = 1 := by norm_num
  rw [restore_chunks65, if_neg (by norm_num), h4]
  rfl

theorem c3_witness :
    (reverse_chunks_in_memory [7, 8, 9] 2 [0]).map List.length = some 4 ∧
    (reverse_chunks [7, 8, 9] 2 [0]).map List.length = some 3 ∧
    reverse_chunks_in_memory [5] 4 [0] = some [0, 0, 0, 5] ∧
    (restore_chunks65 [0, 0, 0, 5] 4 [0]).map (fun r => r.take 1) = some [5] :=
  c3_padded_transform [7, 8, 9] 2 [0] 5 (by decide) (by decide)

/-- Claim C4 counterexample: Black_Hole_89's `find_best_iteration` (cited by
the claim) computes no baseline: `best_compressed_data` starts as `None`, so
with a zero-iteration budget on the nonempty payload `[0]` the search
terminates with no defined result (`some none`: no exception was raised, but
the returned best is absent). -/
theorem c4_counterexample : find_best_89 id [0] [] = some none := rfl

/-- Claim C4 (amended): in Black_Hole_94's `find_best_iteration` the
zero-permutation baseline (`positions = []`, payload passed through
`compress_data` untransformed) is computed before any iteration, so for
every non-empty payload whose length and chunk size fit a u32 the returned
best is defined: with a zero-iteration budget it is exactly that baseline,
and with any candidate list whose calculus values and positions fit their
packed u32 widths and whose position counts fit the u16 field the result is
never absent.  (Outside those widths `struct.pack` raises and the run ends
with no result; Black_Hole_89's variant, also cited, computes no baseline at
all: it starts from `None` and returns no result for a zero-iteration
budget.) -/
theorem c4_baseline_defined (coder : List Nat → List Nat) (input : List Nat)
    (c : Nat) (cands : List Candidate) (hne : input ≠ []) (hc : 0 < c)
    (hlen32 : input.length < 2 ^ 32) (hc32 : c < 2 ^ 32)
    (hcands : ∀ cd ∈ cands, cd.calculus < 2 ^ 32 ∧ cd.positions.length ≤ 65535 ∧
      ∀ p ∈ cd.positions, p < 2 ^ 32) :
    find_best_iteration coder input c []
      = some (coder (container_bytes input c [] input.length 0)) ∧
    (find_best_iteration coder input c cands).isSome := by
  have hlen : ¬ input.length = 0 := by simpa [List.length_eq_zero] using hne
  constructor
  · rw [find_best_iteration, if_neg hlen, compress_data,
      if_neg (by push_neg; exact ⟨hlen32, hc32, by omega⟩), if_neg (by simp),
      if_neg (by simp)]
    rfl
  · rw [find_best_iteration, if_neg hlen, compress_data,
      if_neg (by push_neg; exact ⟨hlen32, hc32, by omega⟩), if_neg (by simp),
      if_neg (by simp)]
    have h := mapM_isSome (iter94 coder input c) cands
      (fun cd hcd => iter94_isSome coder input c cd (by omega) hlen32 hc32
        (hcands cd hcd).1 (hcands cd hcd).2.1 (hcands cd hcd).2.2)
    rcases Option.isSome_iff_exists.mp h with ⟨results, hres⟩
    show ((cands.mapM (iter94 coder input c)).map _).isSome
    rw [hres]
    rfl

theorem c4_witness :
    find_best_iteration id [1] 1 [] = some (id (container_bytes [1] 1 [] 1 0)) ∧
    (find_best_iteration id [1] 1 []).isSome :=
  c4_baseline_defined id [1] 1 [] (by decide) (by decide) (by decide) (by decide)
    (by decide)

/-- Claim C5: across the search loop the best-so-far record is replaced only
when a candidate's compressed size is strictly smaller (ties keep the
earlier, already-found best), and consequently the sequence of best-so-far
sizes over the iterations (the scan of the update step from the baseline,
whose final element is the very fold `find_best_iteration` returns) is
non-increasing. -/
theorem c5_best_monotone (base cand best : List Nat) (results : List (List Nat)) :
    List.Chain' (fun a b => b ≤ a) ((results.scanl bestStep base).map List.length) ∧
    (results.scanl bestStep base).getLast? = some (results.foldl bestStep base) ∧
    (cand.length < best.length → bestStep best cand = cand) ∧
    (¬ cand.length < best.length → bestStep best cand = best) := by
  refine ⟨bestStep_chain results base, scanl_getLast results base, ?_, ?_⟩
  · intro h
    unfold bestStep
    rw [if_pos h]
  · intro h
    unfold bestStep
    rw [if_neg h]

theorem c5_witness :
    List.Chain' (fun a b => b ≤ a)
      (([[1, 2], [9, 9, 9], [1]].scanl bestStep [1, 2, 3]).map List.length) ∧
    ([[1, 2], [9, 9, 9], [1]].scanl bestStep [1, 2, 3]).getLast?
      = some ([[1, 2], [9, 9, 9], [1]].foldl bestStep [1, 2, 3]) ∧
    bestStep [1, 2] [3] = [3] ∧
    bestStep [1, 2] [7, 7] = [1, 2] :=
  ⟨(c5_best_monotone [1, 2, 3] [3] [1, 2] [[1, 2], [9, 9, 9], [1]]).1,
    (c5_best_monotone [1, 2, 3] [3] [1, 2] [[1, 2], [9, 9, 9], [1]]).2.1,
    (c5_best_monotone [1, 2, 3] [3] [1, 2] [[1, 2], [9, 9, 9], [1]]).2.2.1 (by decide),
    (c5_best_monotone [1, 2, 3] [7, 7] [1, 2] [[1, 2], [9, 9, 9], [1]]).2.2.2 (by decide)⟩

/-- Claim C6 counterexample: for the concrete plan (chunkSize 1, no
positions, originalSize 0, empty payload) the container built by
`compress_data` is 14 bytes, while the claimed layout
`MAGIC(2B) | u64 | u32 | u16` is 16 bytes for the same plan regardless of
the magic value, so the container cannot consist of the claimed fields. -/
theorem c6_counterexample :
    (container_bytes [] 1 [] 0 0).length = 14 ∧
    (spec_container_layout [0, 0] 0 1 [] []).length = 16 ∧ (14 : Nat) ≠ 16 := by
  decide

/-- Claim C6 (amended): the encoded container consists of, in order:
originalSize as u32 BE, chunkSize as u32 BE, calculusValue as u32 BE,
positionCount as u16 BE, positionCount u32 BE positions, then the
transformed payload — there is no magic prefix and originalSize is 32-bit,
so the container is two bytes shorter than the spec's canonical layout for
the same plan (hence differs from it byte-for-byte). -/
theorem c6_layout (data : List Nat) (c : Nat) (ps : List Nat) (o v : Nat)
    (magic : List Nat) (hm : magic.length = 2) :
    (container_bytes data c ps o v).take 4 = packBE 4 o ∧
    ((container_bytes data c ps o v).drop 4).take 4 = packBE 4 c ∧
    ((container_bytes data c ps o v).drop 8).take 4 = packBE 4 v ∧
    ((container_bytes data c ps o v).drop 12).take 2 = packBE 2 ps.length ∧
    ((container_bytes data c ps o v).drop 14).take (4 * ps.length)
      = (ps.map (packBE 4)).flatten ∧
    (container_bytes data c ps o v).drop (14 + 4 * ps.length) = data ∧
    (container_bytes data c ps o v).length = 14 + 4 * ps.length + data.length ∧
    (spec_container_layout magic o c ps data).length
      = 16 + 4 * ps.length + data.length := by
  obtain ⟨f1, f2, f3, f4, f5, f6⟩ := container_fields data c ps o v
  refine ⟨f1, f2, f3, f4, f5, f6, container_bytes_length data c ps o v, ?_⟩
  simp only [spec_container_layout, List.length_append, packBE_length,
    flatten_map_packBE_length, hm]

theorem c6_witness :
    (container_bytes [3] 1 [0] 1 0).take 4 = packBE 4 1 ∧
    ((container_bytes [3] 1 [0] 1 0).drop 4).take 4 = packBE 4 1 ∧
    ((container_bytes [3] 1 [0] 1 0).drop 8).take 4 = packBE 4 0 ∧
    ((container_bytes [3] 1 [0] 1 0).drop 12).take 2 = packBE 2 1 ∧
    ((container_bytes [3] 1 [0] 1 0).drop 14).take 4
      = (([0] : List Nat).map (packBE 4)).flatten ∧
    (container_bytes [3] 1 [0] 1 0).drop 18 = [3] ∧
    (container_bytes [3] 1 [0] 1 0).length = 19 ∧
    (spec_container_layout [1, 2] 1 1 [0] [3]).length = 21 :=
  c6_layout [3] 1 [0] 1 0 [1, 2] (by decide)

/-- Claim C7 counterexample: position 5 lies outside
`[0, numChunks) = [0, 2)` for the payload `[1,2]` with chunkSize 1, yet
`reverse_chunks` returns a normal result (the out-of-range position is
silently skipped by the `0 <= pos < len(chunked_data)` guard) rather than
raising any error. -/
theorem c7_counterexample : reverse_chunks [1, 2] 1 [5] = some [1, 2] := by
  decide

/-- Claim C7 (amended): the transform fails (a Python `ValueError` from
`range`, not a dedicated `InvalidPlanError`) exactly when chunkSize = 0;
positions outside `[0, numChunks)` never cause a failure — they are
silently skipped, so filtering them out of the position list leaves the
result unchanged. -/
theorem c7_failure_condition (d : List Nat) (c : Nat) (ps : List Nat) :
    (reverse_chunks d c ps = none ↔ c = 0) ∧
    (c ≠ 0 → reverse_chunks d c ps
      = reverse_chunks d c (ps.filter (fun p => p < (d.length + c - 1) / c))) := by
  constructor
  · constructor
    · intro h
      by_contra hc
      rw [reverse_chunks, if_neg hc] at h
      exact Option.noConfusion h
    · intro h
      rw [reverse_chunks, if_pos h]
  · intro hc
    rw [reverse_chunks, if_neg hc, reverse_chunks, if_neg hc]
    have hnum : (d.length + c - 1) / c = (chunksOf c d).length :=
      (chunksOf_length c hc d).symm
    simp only [hnum]
    rw [revPositions_filter]

theorem c7_witness :
    (reverse_chunks [1, 2, 3] 2 [0, 9] = none ↔ (2 : Nat) = 0) ∧
    reverse_chunks [1, 2, 3] 2 [0, 9]
      = reverse_chunks [1, 2, 3] 2
        ([0, 9].filter (fun p => p < (([1, 2, 3] : List Nat).length + 2 - 1) / 2)) :=
  ⟨(c7_failure_condition [1, 2, 3] 2 [0, 9]).1,
    (c7_failure_condition [1, 2, 3] 2 [0, 9]).2 (by decide)⟩

/-- Claim C8 counterexample: in Black_Hole_94's `find_best_iteration` (cited
by the claim) there is no try/except around the coder call, so a coder
failure on one candidate is fatal.  Concretely: a coder that succeeds on the
zero-permutation baseline container (whose calculus byte, offset 11, is 0)
but fails on the candidate's container (calculus byte 1) kills the whole
search — the result is `none` instead of the already-computed baseline that
discarding the candidate would have returned. -/
theorem c8_counterexample :
    find_best_iteration_f
      (fun bs => if bs.getD 11 0 = 0 then some bs else none) [1] 1
      [Candidate.mk 1 []] = none ∧
    (fun bs => if bs.getD 11 0 = 0 then some bs else none)
      (container_bytes [1] 1 [] 1 0) = some (container_bytes [1] 1 [] 1 0) := by
  decide

/-- Claim C8 (amended): in Black_Hole_65's `find_best_chunk_strategy` an
entropy-coder failure on one candidate is not fatal: the candidate is
discarded, the best-so-far record is unchanged by the failed iteration, and
the loop continues through the remaining budget exactly as if the failed
candidate had not been drawn.  In Black_Hole_94's `find_best_iteration`,
also cited by the claim, there is no such guard: a coder failure on any
candidate propagates and aborts the entire search with no result. -/
theorem c8_coder_failure_skipped (coder : List Nat → Option (List Nat))
    (original : List Nat) (c : Nat) (ps rd : List Nat)
    (best : Option Nat × List Nat) (pre post : List (List Nat))
    (fcoder : List Nat → Option (List Nat)) (input : List Nat) (chunk : Nat)
    (cands1 cands2 : List Candidate) (cd : Candidate)
    (hrev : reverse_chunks_in_memory original c ps = some rd)
    (hfail : coder (container_bytes65 rd c ps original.length) = none)
    (hiter : iter94_f fcoder input chunk cd = none) :
    step65 coder original c best ps = best ∧
    find_best_65 coder original c (pre ++ ps :: post)
      = find_best_65 coder original c (pre ++ post) ∧
    find_best_iteration_f fcoder input chunk (cands1 ++ cd :: cands2) = none := by
  have htry := try_candidate65_none coder original c ps rd hrev hfail
  refine ⟨step65_skip coder original c ps best htry, ?_,
    find_best_iteration_f_fatal fcoder input chunk cands1 cands2 cd hiter⟩
  unfold find_best_65
  rw [List.foldl_append, List.foldl_cons,
    step65_skip coder original c ps _ htry, ← List.foldl_append]

theorem c8_witness :
    step65 (fun _ => none) [1, 2] 1 (none, []) [0] = (none, []) ∧
    find_best_65 (fun _ => none) [1, 2] 1 ([] ++ [0] :: [[1]])
      = find_best_65 (fun _ => none) [1, 2] 1 ([] ++ [[1]]) ∧
    find_best_iteration_f (fun _ => none) [1] 1 ([] ++ Candidate.mk 0 [] :: []) = none :=
  c8_coder_failure_skipped (fun _ => none) [1, 2] 1 [0] [1, 2] (none, []) [] [[1]]
    (fun _ => none) [1] 1 [] [] (Candidate.mk 0 []) (by decide) rfl (by decide)

/-- Claim C9 counterexample: on empty input the padded transform of
Black_Hole_65 errors (`chunked_data[-1]` raises, giving `None`) instead of
producing one chunk of padding zeros; Black_Hole_94's transform returns
zero chunks (empty output, not a padded chunk); and Black_Hole_94's search
driver fails on empty input (`ZeroDivisionError` computing the ratio)
rather than round-tripping without error. -/
theorem c9_counterexample :
    reverse_chunks_in_memory [] 4 [0] = none ∧
    reverse_chunks [] 4 [0] = some [] ∧
    find_best_iteration id [] 4 [] = none := by
  decide

/-- Claim C9 (amended): for empty input and any positive chunk size the
Black_Hole_94 transform yields numChunks = 0 chunks (empty output); the
codec data path (container build, then the decode side of
`decompress_data`) still round-trips the empty payload to an empty output;
but `find_best_iteration` itself fails on empty input (division by zero
computing `best_ratio`), and the Black_Hole_65 padded transform errors on
empty input. -/
theorem c9_empty_input (c v : Nat) (ps : List Nat)
    (coder : List Nat → List Nat) (cands : List Candidate)
    (hc : 0 < c) (hc32 : c < 2 ^ 32) (hv : v < 2 ^ 32) :
    reverse_chunks [] c ps = some [] ∧
    reverse_chunks_in_memory [] c ps = none ∧
    decompress_payload (container_bytes [] c [] 0 v) = some [] ∧
    find_best_iteration coder [] c cands = none := by
  refine ⟨reverse_chunks_nil c ps (by omega), ?_, ?_, rfl⟩
  · rw [reverse_chunks_in_memory, if_neg (by omega)]
    rfl
  · have hparse := parse_container_bytes [] c [] 0 v (by norm_num) hc32 hv
      (by simp) (by norm_num)
    unfold decompress_payload
    rw [hparse]
    show (reverse_chunks [] c []).map _ = some []
    rw [reverse_chunks_nil c [] (by omega)]
    rfl

theorem c9_witness :
    reverse_chunks [] 4 [0] = some [] ∧
    reverse_chunks_in_memory [] 4 [0] = none ∧
    decompress_payload (container_bytes [] 4 [] 0 7) = some [] ∧
    find_best_iteration id [] 4 [] = none :=
  c9_empty_input 4 7 [0] id [] (by decide) (by decide) (by decide)

/-- The chunk reversal commutes with the XOR transform. -/
theorem reverse_chunks_apply_calculus (d : List Nat) (c : Nat) (ps : List Nat)
    (v : Nat) (hc : c ≠ 0) :
    reverse_chunks (apply_calculus d v) c ps
      = (reverse_chunks d c ps).map (fun r => apply_calculus r v) :=
  reverse_chunks_map d c ps hc (fun b => b ^^^ (v &&& 255))

/-- Claim C10: `apply_calculus` (bytewise XOR with the low 8 bits of the
calculus value) is self-inverse and commutes with `reverse_chunks`;
together these make the decompression order (reverse_chunks, then
apply_calculus, then truncate) the exact inverse of the compression order
(apply_calculus, then reverse_chunks), even though the steps are not
undone in reverse order. -/
theorem c10_calculus_commutes (d : List Nat) (v c : Nat) (ps : List Nat)
    (hc : 0 < c) :
    apply_calculus (apply_calculus d v) v = d ∧
    reverse_chunks (apply_calculus d v) c ps
      = (reverse_chunks d c ps).map (fun r => apply_calculus r v) ∧
    (reverse_chunks (apply_calculus d v) c ps).bind
      (fun r => (reverse_chunks r c ps).map
        (fun r2 => (apply_calculus r2 v).take d.length)) = some d := by
  have hcne : c ≠ 0 := by omega
  refine ⟨apply_calculus_apply_calculus d v,
    reverse_chunks_apply_calculus d c ps v hcne, ?_⟩
  have hrd : reverse_chunks d c ps
      = some ((revPositions (chunksOf c d) ps).flatten) := by
    rw [reverse_chunks, if_neg hcne]
  have htwice := reverse_chunks_reverse_chunks d c ps hcne
  rw [hrd] at htwice
  have htw2 : reverse_chunks ((revPositions (chunksOf c d) ps).flatten) c ps
      = some d := htwice
  rw [reverse_chunks_apply_calculus d c ps v hcne, hrd]
  show (reverse_chunks
      (apply_calculus ((revPositions (chunksOf c d) ps).flatten) v) c ps).map
    (fun r2 => (apply_calculus r2 v).take d.length) = some d
  rw [reverse_chunks_apply_calculus _ c ps v hcne, htw2]
  show some ((apply_calculus (apply_calculus d v) v).take d.length) = some d
  rw [apply_calculus_apply_calculus, List.take_length]

theorem c10_witness :
    apply_calculus (apply_calculus [1, 2, 3] 5) 5 = [1, 2, 3] ∧
    reverse_chunks (apply_calculus [1, 2, 3] 5) 2 [1]
      = (reverse_chunks [1, 2, 3] 2 [1]).map (fun r => apply_calculus r 5) ∧
    (reverse_chunks (apply_calculus [1, 2, 3] 5) 2 [1]).bind
      (fun r => (reverse_chunks r 2 [1]).map
        (fun r2 => (apply_calculus r2 5).take 3)) = some [1, 2, 3] :=
  c10_calculus_commutes [1, 2, 3] 5 2 [1] (by decide)

end Claims

end BlackHole
